import Mathlib

/-!
Verification of the checkout simulator in `simulate_checkouts.py`
(CT413-FYP-Dartbot).

The Python source is shallowly embedded below.  Probabilities are modelled
as exact rationals (`ℚ`); the Python floats compute the same arithmetic
expressions up to rounding.  Python strings are Lean `String`s; fallible
code (code paths on which the Python raises an uncaught exception, such as
indexing `bed[0]` of an empty string) is modelled with `Option`, `none`
standing for the exception.  Python dictionaries are insertion-ordered
association lists, mirroring dict iteration order.
-/

/-! ## Python string primitives -/

/-- `s.lower()` (ASCII; the dataset's target codes are ASCII). -/
def pyLower (s : String) : String := ⟨s.data.map Char.toLower⟩

/-- `s.startswith(c)` for a single-character prefix: first character equals `c`. -/
def startsWithChar (s : String) (c : Char) : Bool :=
  match s.data with
  | [] => false
  | c0 :: _ => c0 = c

/-- `s[1:]` on a Python string. -/
def strTail (s : String) : String := ⟨s.data.drop 1⟩

/-- Grammar of the digit part accepted by Python `int(str)`:
digits with single underscores strictly between digits.  The `Bool`
argument records whether a digit is required next (at the start and just
after an underscore). -/
def digitsOk : Bool → List Char → Bool
  | needDigit, [] => !needDigit
  | needDigit, c :: rest =>
    if c = '_' then !needDigit && digitsOk true rest
    else c.isDigit && digitsOk false rest

/-- Strip leading and trailing whitespace, as Python `int(str)` does. -/
def trimWS (cs : List Char) : List Char :=
  ((cs.dropWhile Char.isWhitespace).reverse.dropWhile Char.isWhitespace).reverse

/-- Numeric value of a digit/underscore list (underscores ignored). -/
def digitsVal (cs : List Char) : ℕ :=
  cs.foldl (fun a c => if c = '_' then a else 10 * a + (c.toNat - 48)) 0

/-- Python `int(s)`: optional surrounding whitespace, optional sign, then
digits (underscores allowed between digits).  `none` models `ValueError`. -/
def pyInt (s : String) : Option ℤ :=
  match trimWS s.data with
  | '+' :: rest => if digitsOk true rest then some (digitsVal rest) else none
  | '-' :: rest => if digitsOk true rest then some (-(digitsVal rest : ℤ)) else none
  | rest => if digitsOk true rest then some (digitsVal rest) else none

/-- `try: int(s) except: 0` — the pattern used throughout `score_of`. -/
def pyIntOr0 (s : String) : ℤ := (pyInt s).getD 0

/-- Python `s.isdigit()` (ASCII digits): non-empty and all digits. -/
def pyIsDigit (s : String) : Bool :=
  !s.data.isEmpty && s.data.all Char.isDigit

/-! ## `score_of` and `is_double` (simulate_checkouts.py lines 21–63) -/

/-- `score_of(bed)`: numeric points of a landed bed code.  `none` models the
uncaught `IndexError` raised by `bed[0]` when `bed` is empty; every other
input returns a value (`int(...)` failures are caught and give 0). -/
def score_of (bed0 : String) : Option ℤ :=
  let bed := pyLower bed0
  if bed = "ibull" then some 50
  else if bed = "obull" then some 25
  else if startsWithChar bed 't' then some (3 * pyIntOr0 (strTail bed))
  else if startsWithChar bed 'd' then some (2 * pyIntOr0 (strTail bed))
  else if startsWithChar bed 'i' || startsWithChar bed 'o' then some (pyIntOr0 (strTail bed))
  else if startsWithChar bed 's' then some (pyIntOr0 (strTail bed))
  else
    match bed.data with
    | [] => none
    | c :: _ => if c.isDigit then some (pyIntOr0 bed) else some 0

/-- `is_double(bed)` (lines 57–63): inner bull counts as a double,
outer bull does not, otherwise the code must start with `d`. -/
def is_double (bed0 : String) : Bool :=
  let bed := pyLower bed0
  if bed = "ibull" then true
  else if bed = "obull" then false
  else startsWithChar bed 'd'

/-! ## Board adjacency (lines 16–18) -/

/-- Clockwise dartboard segment order (`BOARD_ORDER`). -/
def BOARD_ORDER : List ℕ := [20, 1, 18, 4, 13, 6, 10, 15, 2, 17, 3, 19, 7, 16, 8, 11, 14, 9, 12, 5]

/-- `NUM_SEGMENTS = len(BOARD_ORDER)`. -/
def NUM_SEGMENTS : ℕ := 20

/-- `BOARD_ORDER[(segment_index[n] - 1) % NUM_SEGMENTS]`: the left
(counter-clockwise) neighbour of segment `n` (Python `%` on a negative
index wraps, hence `Int.emod`). -/
def leftNeighbor (n : ℕ) : ℕ :=
  BOARD_ORDER.getD (((BOARD_ORDER.indexOf n : ℤ) - 1).emod (NUM_SEGMENTS : ℤ)).toNat 0

/-- `BOARD_ORDER[(segment_index[n] + 1) % NUM_SEGMENTS]`: the right
(clockwise) neighbour of segment `n`. -/
def rightNeighbor (n : ℕ) : ℕ :=
  BOARD_ORDER.getD ((BOARD_ORDER.indexOf n + 1) % NUM_SEGMENTS) 0

/-- `f'{c}{n}'`: a one-letter kind prefix followed by a segment number. -/
def mkNumCode (c : Char) (n : ℕ) : String := ⟨c :: (toString n).data⟩

/-- `int(s[1:]) if len(s) > 1 and s[1:].isdigit() else None` — the
target-number parse used by the distribution builder and the safety score. -/
def parseTargetNum (s : String) : Option ℕ :=
  if 1 < s.data.length && pyIsDigit (strTail s) then some (digitsVal (strTail s).data)
  else none

/-! ## Outcome-distribution builder (lines 168–215) -/

/-- `MIN_EMPIRICAL_SAMPLES` (line 13). -/
def MIN_EMPIRICAL_SAMPLES : ℕ := 10

/-- The module-level state `build_distribution_for_aim` reads: the empirical
counters built from the CSV files, the fitted regression (`none` = no
model, mirroring `slope is None`), and the two derived type multipliers
(`mult_treble` is the constant 1.0 in the source). -/
structure Env where
  aimCounts : String → ℕ
  aimEmpirical : String → List (String × ℕ)
  model : Option (ℚ × ℚ)
  multDouble : ℚ
  multSingle : ℚ

/-- Lines 184–185: `slope * avg + intercept if slope is not None else 0.2`,
then clamped to `[0, 1]`. -/
def pHitT20 (model : Option (ℚ × ℚ)) (avg : ℚ) : ℚ :=
  let raw := match model with
    | some si => si.1 * avg + si.2
    | none => 1/5
  max 0 (min 1 raw)

/-- Lines 186–194: pick the type multiplier from the first character of the
aim (`t`/`d`/anything else) and clamp the product to `[0, 0.99]`. -/
def pHitFor (env : Env) (typ : Char) (avg : ℚ) : ℚ :=
  let mult := if typ = 't' then 1 else if typ = 'd' then env.multDouble else env.multSingle
  max 0 (min (99/100) (pHitT20 env.model avg * mult))

/-- `dist[c] = dist.get(c, 0) + v` on an insertion-ordered dict. -/
def addTo {κ : Type} [DecidableEq κ] : List (κ × ℚ) → κ → ℚ → List (κ × ℚ)
  | [], k, v => [(k, v)]
  | (k0, v0) :: rest, k, v =>
    if k0 = k then (k0, v0 + v) :: rest else (k0, v0) :: addTo rest k v

/-- Lines 199–211: the spread keys of the synthetic branch — the two
board-adjacent inner singles (when the segment is on the board) plus the
same-number inner single and double, with `['o20']` as the default when
no number is available. -/
def synthChoices (targetNum : Option ℕ) : List String :=
  let neighbors := match targetNum with
    | some tn =>
      if tn ∈ BOARD_ORDER then [mkNumCode 'i' (leftNeighbor tn), mkNumCode 'i' (rightNeighbor tn)]
      else []
    | none => []
  let sameNum := match targetNum with
    | some tn => [mkNumCode 'i' tn, mkNumCode 'd' tn]
    | none => []
  let choices := neighbors ++ sameNum
  if choices.isEmpty then ["o20"] else choices

/-- Lines 177–182: the target type and number of an aim in the fallback
branch.  `none` models the `IndexError` of `aimed[0]` on an empty non-bull
aim. -/
def aimInfo (aimed : String) : Option (Char × Option ℕ) :=
  if aimed = "obull" then some ('o', some 25)
  else if aimed = "ibull" then some ('i', some 25)
  else match aimed.data with
    | [] => none
    | c :: _ => some (c, parseTargetNum aimed)

/-- Lines 183–214: the synthetic fallback distribution — the clamped hit
probability on the aimed key, the remaining mass split evenly over the
spread keys (added onto the aimed key itself when it is one of them). -/
def synthDist (env : Env) (aimed : String) (avg : ℚ) (ti : Char × Option ℕ) :
    List (String × ℚ) :=
  let pHit := pHitFor env ti.1 avg
  let choices := synthChoices ti.2
  let per := (1 - pHit) / (choices.length : ℚ)
  choices.foldl (fun d c => addTo d c per) [(aimed, pHit)]

/-- `build_distribution_for_aim(aimed, avg)` (lines 168–215).  Empirical
relative frequencies when at least `MIN_EMPIRICAL_SAMPLES` records aimed at
this bed; otherwise the synthetic fallback distribution. -/
def build_distribution_for_aim (env : Env) (aimed0 : String) (avg : ℚ) :
    Option (List (String × ℚ)) :=
  let aimed := pyLower aimed0
  let total := env.aimCounts aimed
  if MIN_EMPIRICAL_SAMPLES ≤ total then
    some ((env.aimEmpirical aimed).map (fun bc => (bc.1, (bc.2 : ℚ) / (total : ℚ))))
  else
    match aimInfo aimed with
    | none => none
    | some ti => some (synthDist env aimed avg ti)

/-- Sum of the probabilities of a distribution (dict values). -/
def valuesSum {κ : Type} (l : List (κ × ℚ)) : ℚ := (l.map (fun kv => kv.2)).sum

/-- `d.get(k)` on an insertion-ordered dict: the value at the first
occurrence of the key. -/
def assocGet {κ : Type} [DecidableEq κ] : List (κ × ℚ) → κ → Option ℚ
  | [], _ => none
  | (k0, v) :: rest, k => if k0 = k then some v else assocGet rest k

/-! ## Weighted hit-rate regression (lines 110–122) -/

/-- The weighted least-squares fit of t20 hit rate against skill average.
Data points are `(average, hit_rate, weight)`.  Returns `none` (`slope is
None` in the source) only when fewer than two points exist; with at least
two points it always produces a model, falling back to slope `0.0` when
the weighted variance of the averages is zero. -/
def fitModel (dps : List (ℚ × ℚ × ℚ)) : Option (ℚ × ℚ) :=
  if 2 ≤ dps.length then
    let W := (dps.map (fun d => d.2.2)).sum
    let meanX := (dps.map (fun d => d.1 * d.2.2)).sum / W
    let meanY := (dps.map (fun d => d.2.1 * d.2.2)).sum / W
    let covXY := (dps.map (fun d => d.2.2 * (d.1 - meanX) * (d.2.1 - meanY))).sum / W
    let varX := (dps.map (fun d => d.2.2 * (d.1 - meanX) ^ 2)).sum / W
    let slope := if varX ≠ 0 then covXY / varX else 0
    some (slope, meanY - slope * meanX)
  else none

/-! ## Checkout DP evaluator (lines 272–311)

`compute_success_prob_for_seq_given_T` is parameterised here by
`probsOf : String → List (String × ℚ)`, the outcome distribution of an
aimed bed — in the source the lookup `dist_map[aimed]` with
`build_distribution_for_aim` as the on-the-fly fallback. -/

/-- The inner loop over `probs.items()` for one state `(rem, p_rem)`:
accumulates into `(new_states, success)`.  Overshoot, a remainder of 1,
and a remainder of 0 without a double are `continue`d past (the branch
mass is dropped); a remainder of 0 on a double adds the mass to
`success`; surviving mass accumulates in the new state dict.  `none`
models the exception `score_of` would raise on an empty bed key. -/
def procOutcomes (rem : ℤ) (pRem : ℚ) :
    List (String × ℚ) → List (ℤ × ℚ) × ℚ → Option (List (ℤ × ℚ) × ℚ)
  | [], acc => some acc
  | (bed, pA) :: rest, acc =>
    match score_of bed with
    | none => none
    | some sc =>
      let p := pRem * pA
      if rem < sc then procOutcomes rem pRem rest acc
      else if rem - sc = 0 then
        if is_double bed then procOutcomes rem pRem rest (acc.1, acc.2 + p)
        else procOutcomes rem pRem rest acc
      else if rem - sc = 1 then procOutcomes rem pRem rest acc
      else procOutcomes rem pRem rest (addTo acc.1 (rem - sc) p, acc.2)

/-- The outer loop over `states.items()`: states with non-positive mass are
skipped (`if p_rem <= 0: continue`). -/
def procStates (probs : List (String × ℚ)) :
    List (ℤ × ℚ) → List (ℤ × ℚ) × ℚ → Option (List (ℤ × ℚ) × ℚ)
  | [], acc => some acc
  | (rem, pRem) :: rest, acc =>
    if pRem ≤ 0 then procStates probs rest acc
    else
      match procOutcomes rem pRem probs acc with
      | none => none
      | some acc2 => procStates probs rest acc2

/-- One dart of the DP: from the current state dict and accumulated success,
produce the next state dict and success. -/
def dartStep (probs : List (String × ℚ)) (states : List (ℤ × ℚ)) (succ : ℚ) :
    Option (List (ℤ × ℚ) × ℚ) :=
  procStates probs states ([], succ)

/-- The loop over the aimed sequence, with the early `break` when the state
dict becomes empty. -/
def runSeq (probsOf : String → List (String × ℚ)) :
    List String → List (ℤ × ℚ) → ℚ → Option ℚ
  | [], _, succ => some succ
  | aimed :: rest, states, succ =>
    match dartStep (probsOf (pyLower aimed)) states succ with
    | none => none
    | some ns => if ns.1.isEmpty then some ns.2 else runSeq probsOf rest ns.1 ns.2

/-- `compute_success_prob_for_seq_given_T(seq, T, bin_label)`:
states start at `{T: 1.0}`, success at `0.0`. -/
def compute_success_prob_for_seq_given_T (probsOf : String → List (String × ℚ))
    (seq : List String) (T : ℤ) : Option ℚ :=
  runSeq probsOf seq [(T, 1)] 0

/-! ### Specification sums for the DP

These closed-form sums describe where the probability mass of each branch
must go; the claim theorems equate the DP's computation with them. -/

/-- Every bed key in the distribution scores without raising. -/
def keysOk (probs : List (String × ℚ)) : Prop :=
  ∀ bq ∈ probs, (score_of bq.1).isSome = true

instance (probs : List (String × ℚ)) : Decidable (keysOk probs) := by
  unfold keysOk
  infer_instance

/-- Mass of a distribution on beds that land exactly on `rem` with a double
or inner bull — the legal finishing mass for one unit of state mass. -/
def finishMassFrom (probs : List (String × ℚ)) (rem : ℤ) : ℚ :=
  ((probs.filter (fun bq => decide (score_of bq.1 = some rem) && is_double bq.1)).map
    (fun bq => bq.2)).sum

/-- Mass of a distribution on beds scoring exactly `sc` points. -/
def pointMassFrom (probs : List (String × ℚ)) (sc : ℤ) : ℚ :=
  ((probs.filter (fun bq => decide (score_of bq.1 = some sc))).map (fun bq => bq.2)).sum

/-- Mass moved from remainder `rem` to remainder `r'` by one dart: only
remainders of at least 2 survive (no overshoot, and the bust remainders 0
and 1 are dropped). -/
def surviveMassFrom (probs : List (String × ℚ)) (rem r' : ℤ) : ℚ :=
  if 2 ≤ r' then pointMassFrom probs (rem - r') else 0

/-- Total legal finishing mass of a state dict under one dart (states with
non-positive mass are skipped by the DP). -/
def legalFinishMass (probs : List (String × ℚ)) (states : List (ℤ × ℚ)) : ℚ :=
  (states.map (fun rp => if 0 < rp.2 then rp.2 * finishMassFrom probs rp.1 else 0)).sum

/-- Total mass a state dict sends to remainder `r'` under one dart. -/
def survivingMass (probs : List (String × ℚ)) (states : List (ℤ × ℚ)) (r' : ℤ) : ℚ :=
  (states.map (fun rp => if 0 < rp.2 then rp.2 * surviveMassFrom probs rp.1 r' else 0)).sum

/-- Total mass a state dict assigns to remainder `r`. -/
def stateMass (l : List (ℤ × ℚ)) (r : ℤ) : ℚ :=
  ((l.filter (fun rp => decide (rp.1 = r))).map (fun rp => rp.2)).sum

/-- Total mass a bed distribution assigns to the key `bed`. -/
def distMass (probs : List (String × ℚ)) (bed : String) : ℚ :=
  ((probs.filter (fun bq => decide (bq.1 = bed))).map (fun bq => bq.2)).sum

/-! ## Safety score (lines 315–353) -/

/-- The `for n in range(1, 21)` loop, called on the list `[1, …, 20]`:
at each `n` first the double-`n` check (safety 0.9, break), then the
loop-invariant bust check (safety 0.3, break); falling off the loop leaves
the initial 0.5. -/
def safetyLoopGo (rl rr : ℤ) : List ℕ → ℚ
  | [] => 1/2
  | n :: rest =>
    if 2 * (n : ℤ) = rl ∨ 2 * (n : ℤ) = rr then 9/10
    else if rl = 1 ∨ rl = 0 ∨ rr = 1 ∨ rr = 0 then 3/10
    else safetyLoopGo rl rr rest

/-- `range(1, 21)` as a list. -/
def seg20 : List ℕ := (List.range 20).map (fun k => k + 1)

/-- Lines 319–353 of `calculate_safety_score`, from the lowered first aim
onwards: unknown (zero-scoring) first darts give 0.5, a first aim without a
parseable on-board segment gives 0.7, and otherwise the two board
neighbours of the first aim (same kind prefix) are scored and the
`range(1, 21)` loop decides between 0.9, 0.3 and the default 0.5. -/
def safetyFromFirst (firstAim : String) (T : ℤ) : Option ℚ :=
  match score_of firstAim with
  | none => none
  | some firstScore =>
    if firstScore = 0 then some (1/2)
    else
      match parseTargetNum firstAim with
      | none => some (7/10)
      | some tn =>
        if tn ∈ BOARD_ORDER then
          match firstAim.data with
          | [] => none
          | typ :: _ =>
            match score_of (mkNumCode typ (leftNeighbor tn)),
                  score_of (mkNumCode typ (rightNeighbor tn)) with
            | some ls, some rs => some (safetyLoopGo (T - ls) (T - rs) seg20)
            | _, _ => none
        else some (7/10)

/-- `calculate_safety_score(seq, T)` (lines 315–353).  `none` models the
exception `score_of` would raise on an empty first aim. -/
def calculate_safety_score (seq : List String) (T : ℤ) : Option ℚ :=
  if seq.length < 2 then some 1
  else
    match seq with
    | [] => some 1
    | f :: _ => safetyFromFirst (pyLower f) T

/-- Modelled from the amended reading of the spec's safety rule: same
header as `safetyFromFirst`, but the loop is replaced by its closed-form
case analysis — a neighbour remainder of exactly 2 gives 0.9; otherwise a
neighbour remainder of 0 or 1 gives 0.3; otherwise any double value `2n`
(`n` in `range(1, 21)`) equal to a neighbour remainder gives 0.9;
otherwise 0.5. -/
def safetySpecFromFirst (firstAim : String) (T : ℤ) : Option ℚ :=
  match score_of firstAim with
  | none => none
  | some firstScore =>
    if firstScore = 0 then some (1/2)
    else
      match parseTargetNum firstAim with
      | none => some (7/10)
      | some tn =>
        if tn ∈ BOARD_ORDER then
          match firstAim.data with
          | [] => none
          | typ :: _ =>
            match score_of (mkNumCode typ (leftNeighbor tn)),
                  score_of (mkNumCode typ (rightNeighbor tn)) with
            | some ls, some rs =>
              some (if T - ls = 2 ∨ T - rs = 2 then 9/10
                    else if T - ls = 1 ∨ T - ls = 0 ∨ T - rs = 1 ∨ T - rs = 0 then 3/10
                    else if ∃ n ∈ seg20, 2 * (n : ℤ) = T - ls ∨ 2 * (n : ℤ) = T - rs
                    then 9/10
                    else 1/2)
            | _, _ => none
        else some (7/10)

/-- The amended safety contract for whole sequences: fixed 1.0 for
sequences shorter than two darts, otherwise `safetySpecFromFirst` on the
lowered first aim. -/
def safetySpec (seq : List String) (T : ℤ) : Option ℚ :=
  if seq.length < 2 then some 1
  else
    match seq with
    | [] => some 1
    | f :: _ => safetySpecFromFirst (pyLower f) T

/-! ## Sequence ranking and per-score result (lines 363–438) -/

/-- One entry of the `scored` list (lines 400–406). -/
structure Scored where
  sequence : List String
  success_prob : ℚ
  success_prob_weighted : ℚ
  safety : ℚ
  is_one_dart : Bool
deriving DecidableEq

/-- The dart-count / bull-finish / precision-lead weighting
(lines 372–395) applied to a raw success probability. -/
def weightedProb (seq : List String) (prob : ℚ) : ℚ :=
  let w1 := if seq.length = 1 then prob * (13/10)
            else if seq.length = 2 then prob * (11/10)
            else prob
  let finalAim := match seq.getLast? with
    | some a => pyLower a
    | none => ""
  let w2 := if finalAim = "ibull" then w1 * (85/100) else w1
  let firstAim := match seq.head? with
    | some a => pyLower a
    | none => ""
  if seq.length = 2 && (startsWithChar firstAim 't' || startsWithChar firstAim 'd')
  then w2 * (90/100) else w2

/-- `sorted`-before relation of the Python key
`(-success_prob_weighted, -safety)`: higher weighted score first, ties by
higher safety. -/
def leScored (a b : Scored) : Bool :=
  decide (b.success_prob_weighted < a.success_prob_weighted ∨
    (a.success_prob_weighted = b.success_prob_weighted ∧ b.safety ≤ a.safety))

/-- Stable insertion of one element into a sorted list: `x` goes before the
first element it is `le`-before-or-tied-with. -/
def insertSorted {α : Type} (le : α → α → Bool) (x : α) : List α → List α
  | [] => [x]
  | y :: ys => if le x y then x :: y :: ys else y :: insertSorted le x ys

/-- Stable sort (Python `list.sort` is stable; any stable comparison sort
computes the same list). -/
def pySort {α : Type} (le : α → α → Bool) (l : List α) : List α :=
  l.foldr (insertSorted le) []

/-- One step of Python `max(..., key=safety)`: keep the current maximum
unless the next element's safety is strictly greater (so the first maximum
wins ties, as in Python). -/
def pyMaxStep (acc : Option Scored) (x : Scored) : Option Scored :=
  match acc with
  | none => some x
  | some m => if m.safety < x.safety then some x else some m

/-- Python `max(l, key=...)` with the safety key: the first element
attaining the maximum safety (`none` on an empty list, where Python would
raise — the source guards with `if scored`). -/
def pyMaxBySafety (l : List Scored) : Option Scored :=
  l.foldl pyMaxStep none

/-- Python `max` over a list of rationals (first maximum). -/
def listMaxQ (l : List ℚ) : Option ℚ :=
  l.foldl (fun acc v =>
    match acc with
    | none => some v
    | some m => if m < v then some v else some m) none

/-- `'|'.join(seq)`. -/
def joinBar (seq : List String) : String := String.intercalate "|" seq

/-- The `best` part of a published per-score entry. -/
structure BestInfo where
  sequence : String
  success_prob : ℚ
  safety : ℚ
deriving DecidableEq

/-- The `safest` part of a published per-score entry. -/
structure SafestInfo where
  sequence : String
  safety : ℚ
deriving DecidableEq

/-- One element of the published `top_5` list. -/
structure TopEntry where
  sequence : List String
  success_prob : ℚ
  safety : ℚ
  is_one_dart : Bool
deriving DecidableEq

/-- The published `results[label][str(T)]` record (lines 419–438). -/
structure ResultRecord where
  best : BestInfo
  safest : SafestInfo
  top_5 : List TopEntry
deriving DecidableEq

/-- Lines 370–406: evaluate each candidate sequence, apply the ranking
weights and the safety score, and keep only candidates with positive
success probability. -/
def scoreCandidates (probsOf : String → List (String × ℚ)) (T : ℤ) :
    List (List String) → Option (List Scored)
  | [] => some []
  | seq :: rest =>
    match compute_success_prob_for_seq_given_T probsOf seq T with
    | none => none
    | some prob =>
      match calculate_safety_score seq T with
      | none => none
      | some safety =>
        match scoreCandidates probsOf T rest with
        | none => none
        | some tail =>
          some (if 0 < prob then
            ⟨seq, prob, weightedProb seq prob, safety, decide (seq.length = 1)⟩ :: tail
          else tail)

/-- Lines 408–438: sort the scored candidates, publish best (head of the
sorted order), safest (maximum safety) and the top 5. -/
def perScoreResult (probsOf : String → List (String × ℚ))
    (cands : List (List String)) (T : ℤ) : Option ResultRecord :=
  match scoreCandidates probsOf T cands with
  | none => none
  | some scored0 =>
    let scored := pySort leScored scored0
    some
      { best :=
          { sequence := match scored.head? with
              | some s => joinBar s.sequence
              | none => ""
            success_prob := match scored.head? with
              | some s => s.success_prob
              | none => 0
            safety := match scored.head? with
              | some s => s.safety
              | none => 0 }
        safest :=
          { sequence := match pyMaxBySafety scored with
              | some m => joinBar m.sequence
              | none => ""
            safety := match listMaxQ (scored.map (fun s => s.safety)) with
              | some v => v
              | none => 0 }
        top_5 := (scored.take 5).map
          (fun s => ⟨s.sequence, s.success_prob, s.safety, s.is_one_dart⟩) }

/-- The empty "no known checkout" record published when no candidate
survives. -/
def emptyResult : ResultRecord :=
  { best := { sequence := "", success_prob := 0, safety := 0 }
    safest := { sequence := "", safety := 0 }
    top_5 := [] }

/-! ## Concrete instances used by witnesses and counterexamples -/

/-- An environment with no empirical data, a fitted model that is constant
at 0.2, and the fallback multipliers 0.6 and 0.9. -/
def envSynth : Env :=
  { aimCounts := fun _ => 0
    aimEmpirical := fun _ => []
    model := some (0, 1/5)
    multDouble := 3/5
    multSingle := 9/10 }

/-- The single-dart sanity-check distribution of the spec:
`{d20: 0.35, i20: 0.4, i1: 0.25}`. -/
def distC3 : List (String × ℚ) := [("d20", 7/20), ("i20", 2/5), ("i1", 1/4)]

/-- A distribution table answering `distC3` for every aim. -/
def probsOfC3 : String → List (String × ℚ) := fun _ => distC3

/-- A distribution table in which every dart surely lands on t20. -/
def probsOfT20 : String → List (String × ℚ) := fun _ => [("t20", 1)]

/-- Ranking example, first candidate: probability 0.5, safety 0.9
(three darts, so the weighted score equals the probability). -/
def cand1 : Scored := ⟨["o17", "o17", "d8"], 1/2, 1/2, 9/10, false⟩

/-- Ranking example, second candidate: probability 0.3, safety 0.9. -/
def cand2 : Scored := ⟨["o13", "o13", "d7"], 3/10, 3/10, 9/10, false⟩

/-- Ranking example, third candidate: probability 0.5, safety 0.4. -/
def cand3 : Scored := ⟨["o15", "o17", "d9"], 1/2, 1/2, 2/5, false⟩

/-! ## Helper lemmas: strings -/

theorem string_eq_empty_iff (s : String) : s = "" ↔ s.data = [] := by
  cases s with
  | mk d =>
    constructor
    · intro h
      rw [h]
    · intro h
      subst h
      rfl

theorem pyLower_ne_empty {s : String} (h : s ≠ "") : pyLower s ≠ "" := by
  intro hcon
  rw [string_eq_empty_iff] at hcon
  apply h
  rw [string_eq_empty_iff]
  exact List.map_eq_nil_iff.mp hcon

/-! ## Helper lemmas: association-list dictionaries -/

theorem valuesSum_nil {κ : Type} : valuesSum ([] : List (κ × ℚ)) = 0 := rfl

theorem valuesSum_cons {κ : Type} (kv : κ × ℚ) (l : List (κ × ℚ)) :
    valuesSum (kv :: l) = kv.2 + valuesSum l := by
  simp [valuesSum]

theorem valuesSum_addTo {κ : Type} [DecidableEq κ] (l : List (κ × ℚ)) (k : κ) (v : ℚ) :
    valuesSum (addTo l k v) = valuesSum l + v := by
  induction l with
  | nil => simp [addTo, valuesSum]
  | cons hd tl ih =>
    obtain ⟨k0, v0⟩ := hd
    by_cases h : k0 = k
    · simp [addTo, h, valuesSum]
      ring
    · simp only [addTo, if_neg h, valuesSum_cons, ih]
      ring

theorem valuesSum_foldl_addTo {κ : Type} [DecidableEq κ] (cs : List κ) (per : ℚ) :
    ∀ d : List (κ × ℚ),
      valuesSum (cs.foldl (fun d c => addTo d c per) d) = valuesSum d + cs.length * per := by
  induction cs with
  | nil => intro d; simp
  | cons c cs ih =>
    intro d
    rw [List.foldl_cons, ih, valuesSum_addTo]
    push_cast [List.length_cons]
    ring

theorem addTo_nonneg {κ : Type} [DecidableEq κ] {l : List (κ × ℚ)} {k : κ} {v : ℚ}
    (hl : ∀ kv ∈ l, 0 ≤ kv.2) (hv : 0 ≤ v) : ∀ kv ∈ addTo l k v, 0 ≤ kv.2 := by
  induction l with
  | nil =>
    intro kv hkv
    simp [addTo] at hkv
    subst hkv
    exact hv
  | cons hd tl ih =>
    obtain ⟨k0, v0⟩ := hd
    by_cases h : k0 = k
    · intro kv hkv
      simp only [addTo, if_pos h, List.mem_cons] at hkv
      rcases hkv with h1 | h2
      · subst h1
        have h0 : (0:ℚ) ≤ v0 := hl (k0, v0) (by simp)
        exact add_nonneg h0 hv
      · exact hl kv (by simp [h2])
    · intro kv hkv
      simp only [addTo, if_neg h, List.mem_cons] at hkv
      rcases hkv with h1 | h2
      · subst h1
        exact hl (k0, v0) (by simp)
      · exact ih (fun kv hkv => hl kv (by simp [hkv])) kv h2

theorem foldl_addTo_nonneg {κ : Type} [DecidableEq κ] (cs : List κ) (per : ℚ)
    (hper : 0 ≤ per) :
    ∀ d : List (κ × ℚ), (∀ kv ∈ d, 0 ≤ kv.2) →
      ∀ kv ∈ cs.foldl (fun d c => addTo d c per) d, 0 ≤ kv.2 := by
  induction cs with
  | nil => intro d hd; simpa using hd
  | cons c cs ih =>
    intro d hd
    rw [List.foldl_cons]
    exact ih (addTo d c per) (addTo_nonneg hd hper)

theorem assocGet_addTo {κ : Type} [DecidableEq κ] (l : List (κ × ℚ)) (k : κ) (v : ℚ)
    (k' : κ) :
    assocGet (addTo l k v) k' =
      if k = k' then some ((assocGet l k).getD 0 + v) else assocGet l k' := by
  induction l with
  | nil =>
    by_cases h : k = k' <;> simp [addTo, assocGet, h]
  | cons hd tl ih =>
    obtain ⟨k0, v0⟩ := hd
    by_cases h0 : k0 = k
    · subst h0
      by_cases h1 : k0 = k' <;> simp [addTo, assocGet, h1]
    · by_cases h1 : k0 = k'
      · subst h1
        have hkk : ¬ k = k0 := fun hcon => h0 hcon.symm
        simp [addTo, if_neg h0, assocGet, if_neg hkk]
      · simp [addTo, if_neg h0, assocGet, if_neg h1, ih]

theorem stateMass_nil (r : ℤ) : stateMass [] r = 0 := rfl

theorem stateMass_cons (k : ℤ) (v : ℚ) (l : List (ℤ × ℚ)) (r : ℤ) :
    stateMass ((k, v) :: l) r = (if k = r then v else 0) + stateMass l r := by
  by_cases h : k = r <;> simp [stateMass, h]

theorem stateMass_addTo (l : List (ℤ × ℚ)) (k : ℤ) (v : ℚ) (r : ℤ) :
    stateMass (addTo l k v) r = stateMass l r + (if k = r then v else 0) := by
  induction l with
  | nil =>
    by_cases h : k = r <;> simp [addTo, stateMass_cons, stateMass_nil, h]
  | cons hd tl ih =>
    obtain ⟨k0, v0⟩ := hd
    by_cases h0 : k0 = k
    · subst h0
      by_cases h1 : k0 = r <;> (simp [addTo, stateMass_cons, h1]; try ring)
    · rw [addTo, if_neg h0, stateMass_cons, stateMass_cons, ih]
      ring

/-! ## Helper lemmas: the stable sort and the safety maximum -/

theorem leScored_refl (a : Scored) : leScored a a = true := by
  simp [leScored]

theorem leScored_total (a b : Scored) : leScored a b = true ∨ leScored b a = true := by
  simp only [leScored, decide_eq_true_eq]
  rcases lt_trichotomy a.success_prob_weighted b.success_prob_weighted with h | h | h
  · exact Or.inr (Or.inl h)
  · rcases le_total b.safety a.safety with hs | hs
    · exact Or.inl (Or.inr ⟨h, hs⟩)
    · exact Or.inr (Or.inr ⟨h.symm, hs⟩)
  · exact Or.inl (Or.inl h)

theorem leScored_trans (a b c : Scored) (h1 : leScored a b = true)
    (h2 : leScored b c = true) : leScored a c = true := by
  simp only [leScored, decide_eq_true_eq] at *
  rcases h1 with h1 | ⟨h1, h1s⟩
  · rcases h2 with h2 | ⟨h2, h2s⟩
    · exact Or.inl (lt_trans h2 h1)
    · exact Or.inl (h2 ▸ h1)
  · rcases h2 with h2 | ⟨h2, h2s⟩
    · exact Or.inl (h1 ▸ h2)
    · exact Or.inr ⟨h1.trans h2, h2s.trans h1s⟩

theorem mem_insertSorted {α : Type} (le : α → α → Bool) (x : α) (l : List α) (a : α) :
    a ∈ insertSorted le x l ↔ a = x ∨ a ∈ l := by
  induction l with
  | nil => simp [insertSorted]
  | cons y ys ih =>
    by_cases h : le x y = true
    · simp [insertSorted, h]
    · simp only [insertSorted, if_neg h, List.mem_cons, ih]
      tauto

theorem insertSorted_ne_nil {α : Type} (le : α → α → Bool) (x : α) (l : List α) :
    insertSorted le x l ≠ [] := by
  cases l with
  | nil => simp [insertSorted]
  | cons y ys =>
    rw [insertSorted]
    split <;> simp

theorem pairwise_insertSorted (x : Scored) (l : List Scored)
    (hl : l.Pairwise (fun a b => leScored a b = true)) :
    (insertSorted leScored x l).Pairwise (fun a b => leScored a b = true) := by
  induction l with
  | nil => simp [insertSorted]
  | cons y ys ih =>
    rcases List.pairwise_cons.mp hl with ⟨hy, hys⟩
    by_cases h : leScored x y = true
    · rw [insertSorted, if_pos h]
      refine List.pairwise_cons.mpr ⟨?_, hl⟩
      intro z hz
      rcases List.mem_cons.mp hz with rfl | hz'
      · exact h
      · exact leScored_trans x y z h (hy z hz')
    · rw [insertSorted, if_neg h]
      have hyx : leScored y x = true := (leScored_total x y).resolve_left h
      refine List.pairwise_cons.mpr ⟨?_, ih hys⟩
      intro z hz
      rcases (mem_insertSorted leScored x ys z).mp hz with rfl | hz'
      · exact hyx
      · exact hy z hz'

theorem pairwise_pySort (l : List Scored) :
    (pySort leScored l).Pairwise (fun a b => leScored a b = true) := by
  induction l with
  | nil => simp [pySort]
  | cons x xs ih => exact pairwise_insertSorted x (pySort leScored xs) ih

theorem mem_pySort {α : Type} (le : α → α → Bool) (l : List α) (a : α) :
    a ∈ pySort le l ↔ a ∈ l := by
  induction l with
  | nil => simp [pySort]
  | cons x xs ih =>
    show a ∈ insertSorted le x (pySort le xs) ↔ _
    rw [mem_insertSorted, ih]
    simp

theorem pySort_ne_nil {α : Type} (le : α → α → Bool) {l : List α} (h : l ≠ []) :
    pySort le l ≠ [] := by
  cases l with
  | nil => exact absurd rfl h
  | cons x xs => exact insertSorted_ne_nil le x (pySort le xs)

theorem pyMax_go (l : List Scored) : ∀ m0 : Scored,
    ∃ m, l.foldl pyMaxStep (some m0) = some m ∧ (m = m0 ∨ m ∈ l) ∧
      m0.safety ≤ m.safety ∧ ∀ c ∈ l, c.safety ≤ m.safety := by
  induction l with
  | nil => intro m0; exact ⟨m0, rfl, Or.inl rfl, le_refl _, by simp⟩
  | cons x xs ih =>
    intro m0
    rw [List.foldl_cons]
    by_cases h : m0.safety < x.safety
    · rw [show pyMaxStep (some m0) x = some x by simp [pyMaxStep, h]]
      obtain ⟨m, hEq, hMem, hle, hall⟩ := ih x
      refine ⟨m, hEq, ?_, le_trans (le_of_lt h) hle, ?_⟩
      · rcases hMem with rfl | hm
        · exact Or.inr (by simp)
        · exact Or.inr (by simp [hm])
      · intro c hc
        rcases List.mem_cons.mp hc with rfl | hc'
        · exact hle
        · exact hall c hc'
    · rw [show pyMaxStep (some m0) x = some m0 by simp [pyMaxStep, h]]
      obtain ⟨m, hEq, hMem, hle, hall⟩ := ih m0
      refine ⟨m, hEq, ?_, hle, ?_⟩
      · rcases hMem with rfl | hm
        · exact Or.inl rfl
        · exact Or.inr (by simp [hm])
      · intro c hc
        rcases List.mem_cons.mp hc with rfl | hc'
        · exact le_trans (not_lt.mp h) hle
        · exact hall c hc'

theorem pyMaxBySafety_spec {l : List Scored} (h : l ≠ []) :
    ∃ m, pyMaxBySafety l = some m ∧ m ∈ l ∧ ∀ c ∈ l, c.safety ≤ m.safety := by
  cases l with
  | nil => exact absurd rfl h
  | cons x xs =>
    obtain ⟨m, hEq, hMem, hle, hall⟩ := pyMax_go xs x
    refine ⟨m, hEq, ?_, ?_⟩
    · rcases hMem with rfl | hm
      · simp
      · simp [hm]
    · intro c hc
      rcases List.mem_cons.mp hc with rfl | hc'
      · exact hle
      · exact hall c hc'

/-! ## Helper lemmas: the DP mass accounting -/

theorem finishMassFrom_nil (rem : ℤ) : finishMassFrom [] rem = 0 := rfl

theorem finishMassFrom_cons (bed : String) (pA : ℚ) (rest : List (String × ℚ)) (rem : ℤ) :
    finishMassFrom ((bed, pA) :: rest) rem =
      (if score_of bed = some rem ∧ is_double bed = true then pA else 0) +
        finishMassFrom rest rem := by
  by_cases h1 : score_of bed = some rem <;> by_cases h2 : is_double bed = true <;>
    simp [finishMassFrom, h1, h2]

theorem pointMassFrom_nil (sc : ℤ) : pointMassFrom [] sc = 0 := rfl

theorem pointMassFrom_cons (bed : String) (pA : ℚ) (rest : List (String × ℚ)) (sc : ℤ) :
    pointMassFrom ((bed, pA) :: rest) sc =
      (if score_of bed = some sc then pA else 0) + pointMassFrom rest sc := by
  by_cases h1 : score_of bed = some sc <;> simp [pointMassFrom, h1]

theorem surviveMassFrom_nil (rem r' : ℤ) : surviveMassFrom [] rem r' = 0 := by
  simp [surviveMassFrom, pointMassFrom_nil]

theorem surviveMassFrom_cons (bed : String) (pA : ℚ) (rest : List (String × ℚ))
    (rem r' : ℤ) :
    surviveMassFrom ((bed, pA) :: rest) rem r' =
      (if 2 ≤ r' ∧ score_of bed = some (rem - r') then pA else 0) +
        surviveMassFrom rest rem r' := by
  by_cases h2 : 2 ≤ r'
  · rw [surviveMassFrom, if_pos h2, surviveMassFrom, if_pos h2, pointMassFrom_cons]
    by_cases h1 : score_of bed = some (rem - r') <;> simp [h1, h2]
  · simp [surviveMassFrom, h2]

theorem legalFinishMass_nil (probs : List (String × ℚ)) : legalFinishMass probs [] = 0 := rfl

theorem legalFinishMass_cons (probs : List (String × ℚ)) (rem : ℤ) (pRem : ℚ)
    (rest : List (ℤ × ℚ)) :
    legalFinishMass probs ((rem, pRem) :: rest) =
      (if 0 < pRem then pRem * finishMassFrom probs rem else 0) +
        legalFinishMass probs rest := by
  simp [legalFinishMass]

theorem survivingMass_nil (probs : List (String × ℚ)) (r' : ℤ) :
    survivingMass probs [] r' = 0 := rfl

theorem survivingMass_cons (probs : List (String × ℚ)) (rem : ℤ) (pRem : ℚ)
    (rest : List (ℤ × ℚ)) (r' : ℤ) :
    survivingMass probs ((rem, pRem) :: rest) r' =
      (if 0 < pRem then pRem * surviveMassFrom probs rem r' else 0) +
        survivingMass probs rest r' := by
  simp [survivingMass]

theorem survivingMass_lt2 (probs : List (String × ℚ)) (states : List (ℤ × ℚ)) (r' : ℤ)
    (h : r' < 2) : survivingMass probs states r' = 0 := by
  induction states with
  | nil => rfl
  | cons st rest ih =>
    obtain ⟨rem, pRem⟩ := st
    rw [survivingMass_cons, ih]
    simp [surviveMassFrom, show ¬ (2:ℤ) ≤ r' from by omega]

theorem procOutcomes_spec (rem : ℤ) (pRem : ℚ) :
    ∀ probs : List (String × ℚ), keysOk probs →
      ∀ (l : List (ℤ × ℚ)) (s : ℚ),
        ∃ l', procOutcomes rem pRem probs (l, s) =
            some (l', s + pRem * finishMassFrom probs rem) ∧
          ∀ r', stateMass l' r' = stateMass l r' + pRem * surviveMassFrom probs rem r' := by
  intro probs
  induction probs with
  | nil =>
    intro _ l s
    refine ⟨l, ?_, ?_⟩
    · simp [procOutcomes, finishMassFrom_nil]
    · intro r'
      simp [surviveMassFrom_nil]
  | cons hd rest ih =>
    intro hk l s
    obtain ⟨bed, pA⟩ := hd
    obtain ⟨sc, hsc⟩ : ∃ sc, score_of bed = some sc :=
      Option.isSome_iff_exists.mp (hk (bed, pA) (by simp))
    have hkrest : keysOk rest := fun bq hbq => hk bq (List.mem_cons_of_mem _ hbq)
    by_cases hov : rem < sc
    · -- overshoot: the branch mass is dropped
      obtain ⟨l', hEq, hM⟩ := ih hkrest l s
      have hfc : finishMassFrom ((bed, pA) :: rest) rem = finishMassFrom rest rem := by
        rw [finishMassFrom_cons, if_neg, zero_add]
        rintro ⟨hc, _⟩
        rw [hsc] at hc
        injection hc with hh
        omega
      refine ⟨l', ?_, ?_⟩
      · rw [hfc]
        simp only [procOutcomes, hsc]
        rw [if_pos hov, hEq]
      · intro r'
        have hsv : surviveMassFrom ((bed, pA) :: rest) rem r' = surviveMassFrom rest rem r' := by
          rw [surviveMassFrom_cons, if_neg, zero_add]
          rintro ⟨h2, hc⟩
          rw [hsc] at hc
          injection hc with hh
          omega
        rw [hsv]
        exact hM r'
    · by_cases h0 : rem - sc = 0
      · have hsv : ∀ r', surviveMassFrom ((bed, pA) :: rest) rem r' =
            surviveMassFrom rest rem r' := by
          intro r'
          rw [surviveMassFrom_cons, if_neg, zero_add]
          rintro ⟨h2, hc⟩
          rw [hsc] at hc
          injection hc with hh
          omega
        by_cases hdb : is_double bed = true
        · -- legal finish: the branch mass is added to the success total
          obtain ⟨l', hEq, hM⟩ := ih hkrest l (s + pRem * pA)
          have hfc : finishMassFrom ((bed, pA) :: rest) rem =
              pA + finishMassFrom rest rem := by
            rw [finishMassFrom_cons, if_pos]
            exact ⟨by rw [hsc]; congr 1; omega, hdb⟩
          refine ⟨l', ?_, ?_⟩
          · rw [hfc]
            simp only [procOutcomes, hsc]
            rw [if_neg hov, if_pos h0, if_pos hdb, hEq]
            have harith : s + pRem * pA + pRem * finishMassFrom rest rem =
                s + pRem * (pA + finishMassFrom rest rem) := by ring
            rw [harith]
          · intro r'
            rw [hsv r']
            exact hM r'
        · -- finishing mass without a double: dropped
          obtain ⟨l', hEq, hM⟩ := ih hkrest l s
          have hfc : finishMassFrom ((bed, pA) :: rest) rem = finishMassFrom rest rem := by
            rw [finishMassFrom_cons, if_neg, zero_add]
            rintro ⟨_, hc⟩
            exact hdb hc
          refine ⟨l', ?_, ?_⟩
          · rw [hfc]
            simp only [procOutcomes, hsc]
            rw [if_neg hov, if_pos h0, if_neg hdb, hEq]
          · intro r'
            rw [hsv r']
            exact hM r'
      · by_cases h1 : rem - sc = 1
        · -- remainder 1: dropped
          obtain ⟨l', hEq, hM⟩ := ih hkrest l s
          have hfc : finishMassFrom ((bed, pA) :: rest) rem = finishMassFrom rest rem := by
            rw [finishMassFrom_cons, if_neg, zero_add]
            rintro ⟨hc, _⟩
            rw [hsc] at hc
            injection hc with hh
            omega
          refine ⟨l', ?_, ?_⟩
          · rw [hfc]
            simp only [procOutcomes, hsc]
            rw [if_neg hov, if_neg h0, if_pos h1, hEq]
          · intro r'
            have hsv : surviveMassFrom ((bed, pA) :: rest) rem r' =
                surviveMassFrom rest rem r' := by
              rw [surviveMassFrom_cons, if_neg, zero_add]
              rintro ⟨h2, hc⟩
              rw [hsc] at hc
              injection hc with hh
              omega
            rw [hsv]
            exact hM r'
        · -- surviving mass moves to the remainder rem - sc ≥ 2
          obtain ⟨l', hEq, hM⟩ := ih hkrest (addTo l (rem - sc) (pRem * pA)) s
          have hfc : finishMassFrom ((bed, pA) :: rest) rem = finishMassFrom rest rem := by
            rw [finishMassFrom_cons, if_neg, zero_add]
            rintro ⟨hc, _⟩
            rw [hsc] at hc
            injection hc with hh
            omega
          refine ⟨l', ?_, ?_⟩
          · rw [hfc]
            simp only [procOutcomes, hsc]
            rw [if_neg hov, if_neg h0, if_neg h1, hEq]
          · intro r'
            rw [hM r', stateMass_addTo, surviveMassFrom_cons]
            have hiff : (2 ≤ r' ∧ score_of bed = some (rem - r')) ↔ rem - sc = r' := by
              rw [hsc]
              constructor
              · rintro ⟨h2, hc⟩
                injection hc with hh
                omega
              · intro h
                refine ⟨by omega, ?_⟩
                congr 1
                omega
            by_cases hr : rem - sc = r'
            · rw [if_pos hr, if_pos (hiff.mpr hr)]
              ring
            · rw [if_neg hr, if_neg (fun hcon => hr (hiff.mp hcon))]
              ring

theorem procStates_spec (probs : List (String × ℚ)) (hk : keysOk probs) :
    ∀ (states : List (ℤ × ℚ)) (acc : List (ℤ × ℚ) × ℚ),
      ∃ ns, procStates probs states acc =
          some (ns, acc.2 + legalFinishMass probs states) ∧
        ∀ r', stateMass ns r' = stateMass acc.1 r' + survivingMass probs states r' := by
  intro states
  induction states with
  | nil =>
    intro acc
    obtain ⟨al, as⟩ := acc
    refine ⟨al, ?_, ?_⟩
    · simp [procStates, legalFinishMass_nil]
    · intro r'
      simp [survivingMass_nil]
  | cons st rest ih =>
    intro acc
    obtain ⟨al, as⟩ := acc
    obtain ⟨rem, pRem⟩ := st
    by_cases hp : pRem ≤ 0
    · obtain ⟨ns, hEq, hM⟩ := ih (al, as)
      refine ⟨ns, ?_, ?_⟩
      · rw [legalFinishMass_cons, if_neg (not_lt.mpr hp)]
        simp only [procStates]
        rw [if_pos hp, hEq, zero_add]
      · intro r'
        rw [survivingMass_cons, if_neg (not_lt.mpr hp), zero_add]
        exact hM r'
    · have hp' : 0 < pRem := lt_of_not_le hp
      obtain ⟨l', hO, hOM⟩ := procOutcomes_spec rem pRem probs hk al as
      obtain ⟨ns, hEq, hM⟩ := ih (l', as + pRem * finishMassFrom probs rem)
      refine ⟨ns, ?_, ?_⟩
      · rw [legalFinishMass_cons, if_pos hp']
        simp only [procStates]
        rw [if_neg hp, hO]
        simp only []
        rw [hEq]
        have harith : as + pRem * finishMassFrom probs rem + legalFinishMass probs rest =
            as + (pRem * finishMassFrom probs rem + legalFinishMass probs rest) := by ring
        rw [harith]
      · intro r'
        rw [survivingMass_cons, if_pos hp']
        rw [hM r', hOM r']
        ring

/-! ## Helper lemmas: the synthetic distribution builder -/

theorem pHitFor_nonneg (env : Env) (typ : Char) (avg : ℚ) : 0 ≤ pHitFor env typ avg :=
  le_max_left 0 _

theorem pHitFor_le (env : Env) (typ : Char) (avg : ℚ) : pHitFor env typ avg ≤ 99/100 := by
  rw [pHitFor]
  exact max_le (by norm_num) (min_le_left _ _)

theorem synthChoices_none : synthChoices none = ["o20"] := rfl

theorem synthChoices_some (tn : ℕ) (h : tn ∈ BOARD_ORDER) :
    synthChoices (some tn) =
      [mkNumCode 'i' (leftNeighbor tn), mkNumCode 'i' (rightNeighbor tn),
        mkNumCode 'i' tn, mkNumCode 'd' tn] := by
  simp [synthChoices, h]

theorem synthChoices_ne_nil (tn : Option ℕ) : synthChoices tn ≠ [] := by
  cases tn with
  | none => simp [synthChoices_none]
  | some n =>
    by_cases h : n ∈ BOARD_ORDER
    · rw [synthChoices_some n h]
      simp
    · simp [synthChoices, h]

theorem synthDist_sum (env : Env) (aimed : String) (avg : ℚ) (ti : Char × Option ℕ) :
    valuesSum (synthDist env aimed avg ti) = 1 := by
  have hlen : (synthChoices ti.2).length ≠ 0 :=
    fun hcon => synthChoices_ne_nil ti.2 (List.length_eq_zero.mp hcon)
  have hlenQ : ((synthChoices ti.2).length : ℚ) ≠ 0 := by
    exact_mod_cast hlen
  simp only [synthDist]
  rw [valuesSum_foldl_addTo, valuesSum_cons, valuesSum_nil]
  field_simp

theorem synthDist_nonneg (env : Env) (aimed : String) (avg : ℚ) (ti : Char × Option ℕ) :
    ∀ kv ∈ synthDist env aimed avg ti, 0 ≤ kv.2 := by
  have hper : 0 ≤ (1 - pHitFor env ti.1 avg) / ((synthChoices ti.2).length : ℚ) := by
    apply div_nonneg
    · have := pHitFor_le env ti.1 avg
      linarith
    · positivity
  simp only [synthDist]
  apply foldl_addTo_nonneg _ _ hper
  intro kv hkv
  simp only [List.mem_singleton] at hkv
  subst hkv
  exact pHitFor_nonneg env ti.1 avg

theorem aimInfo_isSome {s : String} (h : s ≠ "") : ∃ ti, aimInfo s = some ti := by
  unfold aimInfo
  split_ifs
  · exact ⟨_, rfl⟩
  · exact ⟨_, rfl⟩
  · rcases hd : s.data with _ | ⟨c, rest⟩
    · exact absurd ((string_eq_empty_iff s).mpr hd) h
    · exact ⟨(c, parseTargetNum s), rfl⟩

theorem build_eq_synth (env : Env) (aimed0 : String) (avg : ℚ) (ti : Char × Option ℕ)
    (hc : env.aimCounts (pyLower aimed0) < MIN_EMPIRICAL_SAMPLES)
    (hi : aimInfo (pyLower aimed0) = some ti) :
    build_distribution_for_aim env aimed0 avg = some (synthDist env (pyLower aimed0) avg ti) := by
  simp only [build_distribution_for_aim]
  rw [if_neg (by omega), hi]

/-! ## Helper lemmas: board parsing facts (finite checks) -/

theorem parse_mkNumCode : ∀ n ∈ BOARD_ORDER,
    parseTargetNum (mkNumCode 'i' n) = some n ∧ parseTargetNum (mkNumCode 'd' n) = some n := by
  decide

theorem neighbor_facts : ∀ n ∈ BOARD_ORDER,
    leftNeighbor n ∈ BOARD_ORDER ∧ rightNeighbor n ∈ BOARD_ORDER ∧
      leftNeighbor n ≠ n ∧ rightNeighbor n ≠ n := by
  decide

theorem mkNumCode_i_ne_d (n : ℕ) : mkNumCode 'i' n ≠ mkNumCode 'd' n := by
  intro h
  have h2 : ('i' :: (toString n).data) = ('d' :: (toString n).data) :=
    congrArg String.data h
  injection h2 with h3 _
  exact absurd h3 (by decide)

theorem synthDist_get (env : Env) (aimed : String) (avg : ℚ) (typ : Char) (tn : ℕ)
    (hnum : parseTargetNum aimed = some tn) (hseg : tn ∈ BOARD_ORDER) :
    assocGet (synthDist env aimed avg (typ, some tn)) aimed =
      some (pHitFor env typ avg +
        (if aimed = mkNumCode 'i' tn ∨ aimed = mkNumCode 'd' tn
         then (1 - pHitFor env typ avg) / 4 else 0)) := by
  obtain ⟨hLb, hRb, hLn, hRn⟩ := neighbor_facts tn hseg
  have hiL := (parse_mkNumCode (leftNeighbor tn) hLb).1
  have hiR := (parse_mkNumCode (rightNeighbor tn) hRb).1
  have hiT := (parse_mkNumCode tn hseg).1
  have hdT := (parse_mkNumCode tn hseg).2
  have haL : mkNumCode 'i' (leftNeighbor tn) ≠ aimed := by
    intro hcon
    rw [← hcon, hiL] at hnum
    injection hnum with hh
    exact hLn hh
  have haR : mkNumCode 'i' (rightNeighbor tn) ≠ aimed := by
    intro hcon
    rw [← hcon, hiR] at hnum
    injection hnum with hh
    exact hRn hh
  have hLT : mkNumCode 'i' (leftNeighbor tn) ≠ mkNumCode 'i' tn := by
    intro hcon
    rw [hcon, hiT] at hiL
    injection hiL with hh
    exact hLn hh.symm
  have hRT : mkNumCode 'i' (rightNeighbor tn) ≠ mkNumCode 'i' tn := by
    intro hcon
    rw [hcon, hiT] at hiR
    injection hiR with hh
    exact hRn hh.symm
  have hLD : mkNumCode 'i' (leftNeighbor tn) ≠ mkNumCode 'd' tn := by
    intro hcon
    rw [hcon, hdT] at hiL
    injection hiL with hh
    exact hLn hh.symm
  have hRD : mkNumCode 'i' (rightNeighbor tn) ≠ mkNumCode 'd' tn := by
    intro hcon
    rw [hcon, hdT] at hiR
    injection hiR with hh
    exact hRn hh.symm
  simp only [synthDist, List.foldl_cons, List.foldl_nil, synthChoices_some tn hseg]
  by_cases hA : aimed = mkNumCode 'i' tn
  · have hAd : aimed ≠ mkNumCode 'd' tn := fun hcon =>
      mkNumCode_i_ne_d tn (hA.symm.trans hcon)
    rw [if_pos (Or.inl hA)]
    rw [assocGet_addTo, if_neg (fun hcon => hAd hcon.symm)]
    rw [assocGet_addTo, if_pos hA.symm]
    rw [assocGet_addTo, if_neg hRT]
    rw [assocGet_addTo, if_neg hLT]
    have hbase : assocGet [(aimed, pHitFor env typ avg)] (mkNumCode 'i' tn) =
        some (pHitFor env typ avg) := by
      simp [assocGet, hA]
    rw [hbase]
    norm_num
  · by_cases hB : aimed = mkNumCode 'd' tn
    · rw [if_pos (Or.inr hB)]
      rw [assocGet_addTo, if_pos hB.symm]
      rw [assocGet_addTo, if_neg (mkNumCode_i_ne_d tn)]
      rw [assocGet_addTo, if_neg hRD]
      rw [assocGet_addTo, if_neg hLD]
      have hbase : assocGet [(aimed, pHitFor env typ avg)] (mkNumCode 'd' tn) =
          some (pHitFor env typ avg) := by
        simp [assocGet, hB]
      rw [hbase]
      norm_num
    · rw [if_neg (by tauto)]
      rw [assocGet_addTo, if_neg (fun hcon => hB hcon.symm)]
      rw [assocGet_addTo, if_neg (fun hcon => hA hcon.symm)]
      rw [assocGet_addTo, if_neg haR, assocGet_addTo, if_neg haL]
      have hbase : assocGet [(aimed, pHitFor env typ avg)] aimed =
          some (pHitFor env typ avg) := by
        simp [assocGet]
      rw [hbase]
      norm_num

theorem synthDist_nonum (env : Env) (aimed : String) (avg : ℚ) (typ : Char)
    (hnum : parseTargetNum aimed = none) :
    synthDist env aimed avg (typ, none) =
      [(aimed, pHitFor env typ avg), ("o20", 1 - pHitFor env typ avg)] := by
  have hne : aimed ≠ "o20" := by
    intro hcon
    have h20 : parseTargetNum "o20" = some 20 := by decide
    rw [hcon, h20] at hnum
    exact Option.noConfusion hnum
  simp only [synthDist, synthChoices_none, List.foldl_cons, List.foldl_nil]
  rw [addTo, if_neg hne, addTo]
  norm_num

/-! ## Helper lemmas: the safety loop -/

theorem safetyLoopGo_no_bust (rl rr : ℤ) (hb : ¬(rl = 1 ∨ rl = 0 ∨ rr = 1 ∨ rr = 0)) :
    ∀ l : List ℕ, safetyLoopGo rl rr l =
      if ∃ n ∈ l, 2 * (n : ℤ) = rl ∨ 2 * (n : ℤ) = rr then 9/10 else 1/2 := by
  intro l
  induction l with
  | nil => simp [safetyLoopGo]
  | cons n rest ih =>
    by_cases hn : 2 * (n : ℤ) = rl ∨ 2 * (n : ℤ) = rr
    · rw [safetyLoopGo, if_pos hn, if_pos ⟨n, by simp, hn⟩]
    · rw [safetyLoopGo, if_neg hn, if_neg hb, ih]
      by_cases hr : ∃ m ∈ rest, 2 * (m : ℤ) = rl ∨ 2 * (m : ℤ) = rr
      · rw [if_pos hr, if_pos (by
          obtain ⟨m, hm, hmp⟩ := hr
          exact ⟨m, by simp [hm], hmp⟩)]
      · rw [if_neg hr, if_neg (by
          rintro ⟨m, hm, hmp⟩
          rcases List.mem_cons.mp hm with rfl | hm'
          · exact hn hmp
          · exact hr ⟨m, hm', hmp⟩)]

theorem safetyLoopGo_closed (rl rr : ℤ) :
    safetyLoopGo rl rr seg20 =
      if rl = 2 ∨ rr = 2 then 9/10
      else if rl = 1 ∨ rl = 0 ∨ rr = 1 ∨ rr = 0 then 3/10
      else if ∃ n ∈ seg20, 2 * (n : ℤ) = rl ∨ 2 * (n : ℤ) = rr then 9/10
      else 1/2 := by
  have hseg : seg20 = 1 :: [2, 3, 4, 5, 6, 7, 8, 9, 10, 11, 12, 13, 14, 15, 16, 17, 18, 19, 20] := by
    decide
  by_cases h2 : rl = 2 ∨ rr = 2
  · rw [if_pos h2, hseg, safetyLoopGo, if_pos (by
      rcases h2 with h | h
      · left
        push_cast
        omega
      · right
        push_cast
        omega)]
  · rw [if_neg h2]
    by_cases hb : rl = 1 ∨ rl = 0 ∨ rr = 1 ∨ rr = 0
    · rw [if_pos hb, hseg, safetyLoopGo, if_neg (by
        rintro (h | h)
        · push_cast at h
          exact h2 (Or.inl (by omega))
        · push_cast at h
          exact h2 (Or.inr (by omega))), if_pos hb]
    · rw [if_neg hb, safetyLoopGo_no_bust rl rr hb seg20]

/-! ## Claim theorems -/

/-- Claim C1: checkout legality in the DP evaluator.  For one dart of
`compute_success_prob_for_seq_given_T` (the transition `dartStep` applied to
any state dict, with any outcome distribution whose keys all score): the
success total grows by exactly the mass of branches landing on the
remainder with a double or inner bull (`legalFinishMass`); the mass carried
to the next dart at each remainder `r'` is exactly the mass of branches
that neither overshoot nor land on 0 or 1 (`survivingMass`); and no mass at
all is carried at remainders 0 or 1.  Busted branches (overshoot, remainder
1, or remainder 0 without a double) therefore appear in neither total:
their mass is dropped. -/
theorem dp_checkout_legality (probs : List (String × ℚ)) (states : List (ℤ × ℚ))
    (succ0 : ℚ) (hk : keysOk probs) :
    ∃ ns, dartStep probs states succ0 = some (ns, succ0 + legalFinishMass probs states) ∧
      (∀ r', stateMass ns r' = survivingMass probs states r') ∧
      stateMass ns 0 = 0 ∧ stateMass ns 1 = 0 := by
  obtain ⟨ns, hEq, hM⟩ := procStates_spec probs hk states ([], succ0)
  refine ⟨ns, hEq, ?_, ?_, ?_⟩
  · intro r'
    rw [hM r', stateMass_nil, zero_add]
  · rw [hM 0, stateMass_nil, survivingMass_lt2 probs states 0 (by omega), zero_add]
  · rw [hM 1, stateMass_nil, survivingMass_lt2 probs states 1 (by omega), zero_add]

/-- Witness for C1: a concrete dart step from remainder 4 with outcome
distribution `{d2: 0.5, i3: 0.25, o5: 0.25}`. -/
theorem dp_checkout_legality_witness :
    keysOk [("d2", 1/2), ("i3", 1/4), ("o5", 1/4)] ∧
    ∃ ns, dartStep [("d2", 1/2), ("i3", 1/4), ("o5", 1/4)] [(4, 1)] 0 =
        some (ns, 0 + legalFinishMass [("d2", 1/2), ("i3", 1/4), ("o5", 1/4)] [(4, 1)]) ∧
      (∀ r', stateMass ns r' =
        survivingMass [("d2", 1/2), ("i3", 1/4), ("o5", 1/4)] [(4, 1)] r') ∧
      stateMass ns 0 = 0 ∧ stateMass ns 1 = 0 :=
  ⟨by decide, dp_checkout_legality _ _ _ (by decide)⟩

/-- Claim C3: for a one-dart sequence aiming at `a`, where `a` scores
exactly the remaining total with a double, and no other key of the outcome
distribution is a double scoring the total, the DP's success probability is
exactly the distribution's mass on `a`. -/
theorem single_dart_double_exact (probsOf : String → List (String × ℚ)) (a : String)
    (T : ℤ) (hk : keysOk (probsOf (pyLower a)))
    (hsc : score_of a = some T)
    (hdb : is_double a = true)
    (honly : ∀ bq ∈ probsOf (pyLower a),
      score_of bq.1 = some T → is_double bq.1 = true → bq.1 = a) :
    compute_success_prob_for_seq_given_T probsOf [a] T =
      some (distMass (probsOf (pyLower a)) a) := by
  have hfd : finishMassFrom (probsOf (pyLower a)) T = distMass (probsOf (pyLower a)) a := by
    have hfilter :
        (probsOf (pyLower a)).filter
            (fun bq => decide (score_of bq.1 = some T) && is_double bq.1) =
          (probsOf (pyLower a)).filter (fun bq => decide (bq.1 = a)) := by
      apply List.filter_congr
      intro bq hbq
      by_cases h1 : score_of bq.1 = some T
      · by_cases h2 : is_double bq.1 = true
        · simp [h1, h2, honly bq hbq h1 h2, hsc, hdb]
        · have hne : bq.1 ≠ a := fun hcon => h2 (by rw [hcon]; exact hdb)
          simp [h1, h2, hne]
      · have hne : bq.1 ≠ a := fun hcon => h1 (by rw [hcon]; exact hsc)
        simp [h1, hne]
    unfold finishMassFrom distMass
    rw [hfilter]
  obtain ⟨ns, hEq, hM⟩ := procStates_spec (probsOf (pyLower a)) hk [(T, 1)] ([], 0)
  have hstep : dartStep (probsOf (pyLower a)) [(T, 1)] 0 =
      some (ns, distMass (probsOf (pyLower a)) a) := by
    rw [dartStep, hEq]
    congr 1
    rw [legalFinishMass_cons, legalFinishMass_nil, if_pos (by norm_num : (0:ℚ) < 1),
      one_mul, add_zero, hfd, zero_add]
  unfold compute_success_prob_for_seq_given_T
  rw [runSeq, hstep]
  by_cases hns : ns.isEmpty = true
  · simp [hns]
  · simp [hns, runSeq]

/-- Witness for C3: remaining 40, sequence `[d20]`, distribution
`{d20: 0.35, i20: 0.4, i1: 0.25}` gives exactly 0.35. -/
theorem single_dart_double_exact_witness :
    compute_success_prob_for_seq_given_T probsOfC3 ["d20"] 40 = some (7/20) := by
  have h := single_dart_double_exact probsOfC3 "d20" 40 (by decide) (by decide)
    (by decide) (by decide)
  rw [h]
  simp +decide [distMass, probsOfC3, distC3]

/-- Claim C10 (amended): `score_of` never raises on a non-empty string and
always returns an integer — but that integer can be negative (the claim's
"non-negative" fails, see the counterexample), because Python `int`
accepts a sign in the suffix.  The empty string is the one input that
raises (`bed[0]`). -/
theorem score_of_total :
    (∀ bed : String, bed ≠ "" → ∃ z, score_of bed = some z) ∧ score_of "" = none := by
  constructor
  · intro bed hbed
    have hdata : (pyLower bed).data ≠ [] := by
      intro hcon
      exact pyLower_ne_empty hbed ((string_eq_empty_iff _).mpr hcon)
    show ∃ z,
      (if pyLower bed = "ibull" then some 50
       else if pyLower bed = "obull" then some 25
       else if startsWithChar (pyLower bed) 't' then some (3 * pyIntOr0 (strTail (pyLower bed)))
       else if startsWithChar (pyLower bed) 'd' then some (2 * pyIntOr0 (strTail (pyLower bed)))
       else if startsWithChar (pyLower bed) 'i' || startsWithChar (pyLower bed) 'o' then
         some (pyIntOr0 (strTail (pyLower bed)))
       else if startsWithChar (pyLower bed) 's' then some (pyIntOr0 (strTail (pyLower bed)))
       else
         match (pyLower bed).data with
         | [] => none
         | c :: _ => if c.isDigit then some (pyIntOr0 (pyLower bed)) else some 0) = some z
    split_ifs <;> try exact ⟨_, rfl⟩
    rcases hd : (pyLower bed).data with _ | ⟨c, rest⟩
    · exact absurd hd hdata
    · show ∃ z, (if c.isDigit = true then some (pyIntOr0 (pyLower bed)) else some 0) = some z
      by_cases hc : c.isDigit = true
      · rw [if_pos hc]
        exact ⟨_, rfl⟩
      · rw [if_neg hc]
        exact ⟨_, rfl⟩
  · rfl

/-- Witness for C10: the defined branch at the non-empty code `x7`. -/
theorem score_of_total_witness : ("x7" : String) ≠ "" ∧ ∃ z, score_of "x7" = some z :=
  ⟨by decide, score_of_total.1 "x7" (by decide)⟩

/-- Counterexample for C10 as stated: `score_of "t-5"` returns the negative
score −15 (Python `int("-5")` parses the sign), so the result is not always
non-negative and a malformed-looking code is not always mapped to 0. -/
theorem score_of_negative_counterexample :
    score_of "t-5" = some (-15) ∧ ((-15 : ℤ) < 0) := by
  constructor
  · decide
  · decide

/-- Claim C7 (amended): the safety score equals the case analysis of
`safetySpec` — 1.0 for short sequences, 0.5 for a first aim scoring 0, 0.7
for a first aim without a parseable on-board segment, and otherwise: 0.9
when a neighbour remainder is exactly 2, else 0.3 when a neighbour
remainder is 0 or 1, else 0.9 when some double `2n` (`n` in 1..20) equals
a neighbour remainder, else 0.5.  Note the bust check takes priority over
every double except double 1, unlike the claim's reading. -/
theorem safety_score_characterization (seq : List String) (T : ℤ) :
    calculate_safety_score seq T = safetySpec seq T := by
  have hcore : ∀ (s : String) (T' : ℤ), safetyFromFirst s T' = safetySpecFromFirst s T' := by
    intro s T'
    unfold safetyFromFirst safetySpecFromFirst
    repeat' split
    all_goals first
      | rfl
      | (rw [safetyLoopGo_closed]; simp_all)
  unfold calculate_safety_score safetySpec
  repeat' split
  all_goals first
    | rfl
    | exact hcore _ _

/-- Counterexample for C7 as stated: sequence `[o20, d2]` with remaining 5.
Missing o20 to the right neighbour (segment 1, score 1) leaves remainder
4 = double 2's value, so the claim demands the high safety 0.9; the code
returns the low 0.3, because the left neighbour (segment 5, score 5)
leaves remainder 0 and the loop's bust check fires at n = 1 before the
double-2 check at n = 2. -/
theorem safety_priority_counterexample :
    calculate_safety_score ["o20", "d2"] 5 = some (3/10) ∧
      rightNeighbor 20 = 1 ∧ score_of "o1" = some 1 ∧ (5 : ℤ) - 1 = 2 * 2 ∧
      ((3 : ℚ)/10) ≠ 9/10 := by
  refine ⟨?_, by decide, by decide, by decide, by norm_num⟩
  rfl

/-- Claim C2: every distribution produced by the synthetic (fallback)
branch of `build_distribution_for_aim` — any aim with fewer than the
minimum empirical samples, including aims that coincide with their own
spread keys and bull aims — has non-negative probabilities summing to
exactly 1 (so certainly within 1e-9). -/
theorem synthetic_distribution_valid (env : Env) (aimed : String) (avg : ℚ)
    (hc : env.aimCounts (pyLower aimed) < MIN_EMPIRICAL_SAMPLES)
    (h0 : aimed ≠ "") :
    ∃ d, build_distribution_for_aim env aimed avg = some d ∧
      (∀ kv ∈ d, 0 ≤ kv.2) ∧ valuesSum d = 1 := by
  obtain ⟨ti, hti⟩ := aimInfo_isSome (pyLower_ne_empty h0)
  exact ⟨synthDist env (pyLower aimed) avg ti,
    build_eq_synth env aimed avg ti hc hti,
    synthDist_nonneg env (pyLower aimed) avg ti,
    synthDist_sum env (pyLower aimed) avg ti⟩

/-- Witness for C2: the synthetic distribution for aiming at d20 with a
representative average of 45. -/
theorem synthetic_distribution_valid_witness :
    envSynth.aimCounts (pyLower "d20") < MIN_EMPIRICAL_SAMPLES ∧ ("d20" : String) ≠ "" ∧
    ∃ d, build_distribution_for_aim envSynth "d20" 45 = some d ∧
      (∀ kv ∈ d, 0 ≤ kv.2) ∧ valuesSum d = 1 :=
  ⟨by decide, by decide,
    synthetic_distribution_valid envSynth "d20" 45 (by decide) (by decide)⟩

/-- Claim C4 (amended): the regression returns no model (`slope is None`)
exactly when fewer than 2 data points exist, and only then does the
builder's `pHitT20` fall back to the constant 0.2.  With 2 or more points
whose averages are all identical (zero variance), the code does NOT return
"no model": it degenerates to slope 0 with the weighted mean hit rate as
intercept, and the builder uses that value instead of the 0.2 constant. -/
theorem fitModel_no_model_conditions :
    (∀ dps : List (ℚ × ℚ × ℚ), fitModel dps = none ↔ dps.length < 2) ∧
    (∀ avg : ℚ, pHitT20 none avg = 1/5) ∧
    (∀ (dps : List (ℚ × ℚ × ℚ)) (c : ℚ), 2 ≤ dps.length →
      0 < (dps.map (fun d => d.2.2)).sum → (∀ d ∈ dps, d.1 = c) →
      fitModel dps =
        some (0, (dps.map (fun d => d.2.1 * d.2.2)).sum / (dps.map (fun d => d.2.2)).sum)) := by
  refine ⟨?_, ?_, ?_⟩
  · intro dps
    constructor
    · intro h
      by_contra hcon
      push_neg at hcon
      simp only [fitModel, if_pos hcon] at h
      exact Option.noConfusion h
    · intro h
      simp only [fitModel, if_neg (by omega : ¬ 2 ≤ dps.length)]
  · intro avg
    norm_num [pHitT20]
  · intro dps c h2 hW hall
    have hW' : (dps.map (fun d => d.2.2)).sum ≠ 0 := ne_of_gt hW
    have hmul : ∀ l : List (ℚ × ℚ × ℚ),
        (l.map (fun d => c * d.2.2)).sum = c * (l.map (fun d => d.2.2)).sum := by
      intro l
      induction l with
      | nil => simp
      | cons d l ih =>
        simp only [List.map_cons, List.sum_cons, ih]
        ring
    have hx : (dps.map (fun d => d.1 * d.2.2)).sum = c * (dps.map (fun d => d.2.2)).sum := by
      have hmap : dps.map (fun d => d.1 * d.2.2) = dps.map (fun d => c * d.2.2) :=
        List.map_congr_left (fun d hd => by rw [hall d hd])
      rw [hmap, hmul]
    have hmx : (dps.map (fun d => d.1 * d.2.2)).sum / (dps.map (fun d => d.2.2)).sum = c := by
      rw [hx, mul_div_assoc, div_self hW', mul_one]
    simp only [fitModel, if_pos h2, hmx]
    have hvar : (dps.map (fun d => d.2.2 * (d.1 - c) ^ 2)).sum = 0 := by
      have hmap : dps.map (fun d => d.2.2 * (d.1 - c) ^ 2) = dps.map (fun _ => (0:ℚ)) :=
        List.map_congr_left (fun d hd => by rw [hall d hd]; ring)
      rw [hmap]
      simp
    rw [hvar, zero_div]
    rw [if_neg (by norm_num)]
    norm_num

/-- Witness for C4: two weighted points with the same average 50 and hit
rates 0.3 and 0.5 produce the degenerate model (0, 0.4). -/
theorem fitModel_no_model_conditions_witness :
    fitModel [((50:ℚ), (3:ℚ)/10, (10:ℚ)), (50, 1/2, 10)] = some (0, 2/5) := by
  have h := fitModel_no_model_conditions.2.2 [((50:ℚ), (3:ℚ)/10, (10:ℚ)), (50, 1/2, 10)] 50
    (by norm_num) (by norm_num)
    (by
      intro d hd
      rcases List.mem_cons.mp hd with rfl | hd'
      · norm_num
      · rcases List.mem_cons.mp hd' with rfl | hd''
        · norm_num
        · simp at hd'')
  rw [h]
  norm_num

/-- Counterexample for C4 as stated: with two data points of identical
average 50 (zero variance), `fitModel` does not return "no model" — it
returns the model (0, 2/5) — and the builder then uses 0.4 where the claim
says the fixed default 0.2 would be used. -/
theorem fitModel_zero_variance_counterexample :
    fitModel [((50:ℚ), (3:ℚ)/10, (10:ℚ)), (50, 1/2, 10)] ≠ none ∧
    pHitT20 (some (0, 2/5)) 45 = 2/5 ∧ ((2:ℚ)/5) ≠ 1/5 := by
  refine ⟨?_, by norm_num [pHitT20], by norm_num⟩
  simp only [fitModel, if_pos (by norm_num : 2 ≤ ([((50:ℚ), (3:ℚ)/10, (10:ℚ)), (50, 1/2, 10)]).length)]
  simp

/-- Claim C5 (amended): in the synthetic branch, for an aim with a
parseable on-board segment number, the probability assigned to the aimed
key is `pHitFor` — the regression value clamped to `[0,1]`, multiplied by
the type multiplier, and then clamped to `[0, 0.99]` — plus, exactly when
the aimed key is its own same-number spread key (an inner single `i<n>` or
a double `d<n>`), an additional even share `(1 − pHitFor)/4` of the
remaining mass.  The claim's formula (clamp to `[0,0.99]` before the
multiplier, with no extra share) fails on doubles and inner singles — see
the counterexample. -/
theorem synthetic_aim_probability (env : Env) (aimed : String) (avg : ℚ) (typ : Char)
    (tn : ℕ)
    (hc : env.aimCounts aimed < MIN_EMPIRICAL_SAMPLES)
    (hlow : pyLower aimed = aimed)
    (hb1 : aimed ≠ "obull") (hb2 : aimed ≠ "ibull")
    (hhead : aimed.data.head? = some typ)
    (hnum : parseTargetNum aimed = some tn)
    (hseg : tn ∈ BOARD_ORDER) :
    ∃ d, build_distribution_for_aim env aimed avg = some d ∧
      assocGet d aimed = some (pHitFor env typ avg +
        (if aimed = mkNumCode 'i' tn ∨ aimed = mkNumCode 'd' tn
         then (1 - pHitFor env typ avg) / 4 else 0)) := by
  have hinfo : aimInfo aimed = some (typ, some tn) := by
    unfold aimInfo
    rw [if_neg hb1, if_neg hb2]
    rcases hd : aimed.data with _ | ⟨c, rest⟩
    · rw [hd] at hhead
      exact absurd hhead (by simp)
    · rw [hd] at hhead
      injection hhead with hct
      rw [hnum, hct]
  have hbuild := build_eq_synth env aimed avg (typ, some tn)
    (by rw [hlow]; exact hc) (by rw [hlow]; exact hinfo)
  rw [hlow] at hbuild
  exact ⟨_, hbuild, synthDist_get env aimed avg typ tn hnum hseg⟩

/-- Witness for C5: the aim d20 at representative average 45 in the
no-data environment. -/
theorem synthetic_aim_probability_witness :
    ∃ d, build_distribution_for_aim envSynth "d20" 45 = some d ∧
      assocGet d "d20" = some (pHitFor envSynth 'd' 45 +
        (if "d20" = mkNumCode 'i' 20 ∨ "d20" = mkNumCode 'd' 20
         then (1 - pHitFor envSynth 'd' 45) / 4 else 0)) :=
  synthetic_aim_probability envSynth "d20" 45 'd' 20 (by decide) (by decide) (by decide)
    (by decide) (by decide) (by decide) (by decide)

/-- Counterexample for C5 as stated: aiming d20 (regression value 0.2,
double multiplier 0.6), the claim's formula gives
min(0.99, max(0, 0.2)) × 0.6 = 0.12, but the aimed key d20 carries 0.34 =
0.12 + 0.22, because d20 is one of its own four spread keys and receives
an even share of the remaining 0.88. -/
theorem synthetic_aim_probability_counterexample :
    build_distribution_for_aim envSynth "d20" 45 =
      some [("d20", 17/50), ("i5", 11/50), ("i1", 11/50), ("i20", 11/50)] ∧
    ((17:ℚ)/50) ≠ min (99/100) (max 0 ((0:ℚ) * 45 + 1/5)) * (3/5) := by
  constructor
  · have hinfo : aimInfo "d20" = some ('d', some 20) := by decide
    have hlow : pyLower "d20" = "d20" := by decide
    have h1 := build_eq_synth envSynth "d20" 45 ('d', some 20)
      (by rw [hlow]; decide) (by rw [hlow]; exact hinfo)
    rw [hlow] at h1
    rw [h1]
    have hL : leftNeighbor 20 = 5 := by decide
    have hR : rightNeighbor 20 = 1 := by decide
    have hm5 : mkNumCode 'i' 5 = "i5" := by decide
    have hm1 : mkNumCode 'i' 1 = "i1" := by decide
    have hm20 : mkNumCode 'i' 20 = "i20" := by decide
    have hd20 : mkNumCode 'd' 20 = "d20" := by decide
    simp only [synthDist, synthChoices_some 20 (by decide), hL, hR, hm5, hm1, hm20, hd20,
      List.foldl_cons, List.foldl_nil]
    simp +decide [addTo]
    have hdt : (('d' : Char) = 't') = False := by decide
    norm_num [pHitFor, pHitT20, envSynth, hdt]
  · norm_num

/-- Claim C9 (amended): a target code whose suffix is not a parseable
segment number is NOT rejected by the synthetic branch — the builder
silently synthesizes a two-key distribution, the hit mass on the malformed
key itself and the remainder on the fixed fallback key o20.  The only
rejected aim is the empty string (an uncaught IndexError). -/
theorem malformed_aim_not_rejected (env : Env) (aimed : String) (avg : ℚ) (typ : Char)
    (hc : env.aimCounts aimed < MIN_EMPIRICAL_SAMPLES)
    (hlow : pyLower aimed = aimed)
    (hb1 : aimed ≠ "obull") (hb2 : aimed ≠ "ibull")
    (hhead : aimed.data.head? = some typ)
    (hnum : parseTargetNum aimed = none) :
    build_distribution_for_aim env aimed avg =
      some [(aimed, pHitFor env typ avg), ("o20", 1 - pHitFor env typ avg)] := by
  have hinfo : aimInfo aimed = some (typ, none) := by
    unfold aimInfo
    rw [if_neg hb1, if_neg hb2]
    rcases hd : aimed.data with _ | ⟨c, rest⟩
    · rw [hd] at hhead
      exact absurd hhead (by simp)
    · rw [hd] at hhead
      injection hhead with hct
      rw [hnum, hct]
  have hbuild := build_eq_synth env aimed avg (typ, none)
    (by rw [hlow]; exact hc) (by rw [hlow]; exact hinfo)
  rw [hlow] at hbuild
  rw [hbuild, synthDist_nonum env aimed avg typ hnum]

/-- Witness for C9: the malformed aim `xq` (kind `x`, no segment) still
yields a synthesized two-key distribution. -/
theorem malformed_aim_not_rejected_witness :
    build_distribution_for_aim envSynth "xq" 45 =
      some [("xq", pHitFor envSynth 'x' 45), ("o20", 1 - pHitFor envSynth 'x' 45)] :=
  malformed_aim_not_rejected envSynth "xq" 45 'x' (by decide) (by decide) (by decide)
    (by decide) (by decide) (by decide)

/-- Counterexample for C9 as stated: `xq` cannot be parsed into a valid
(kind, segment) pair, yet the builder does not reject it — it silently
produces a full synthesized distribution (masses 0.18 and 0.82, summing to
1), exactly the outcome the claim forbids. -/
theorem malformed_aim_counterexample :
    build_distribution_for_aim envSynth "xq" 45 = some [("xq", 9/50), ("o20", 41/50)] ∧
    valuesSum [(("xq" : String), (9:ℚ)/50), ("o20", 41/50)] = 1 := by
  constructor
  · have hinfo : aimInfo "xq" = some ('x', none) := by decide
    have hlow : pyLower "xq" = "xq" := by decide
    have h1 := build_eq_synth envSynth "xq" 45 ('x', none)
      (by rw [hlow]; decide) (by rw [hlow]; exact hinfo)
    rw [hlow] at h1
    rw [h1, synthDist_nonum envSynth "xq" 45 'x' (by decide)]
    simp +decide [pHitFor, pHitT20, envSynth]
    norm_num
  · norm_num [valuesSum]

/-- Claim C6: selection order.  For every non-empty scored list, the head
of the published sort order is a candidate that is maximal by (weighted
score, then safety), and the published safest is a candidate attaining the
maximum safety value regardless of its rank; moreover, in the concrete
three-candidate example with probabilities 0.5, 0.3, 0.5 and safeties
0.9, 0.9, 0.4 (equal dart counts, so weighted = raw), the (0.5, 0.9)
candidate is selected both as best and as safest. -/
theorem ranking_selection :
    (∀ scored : List Scored, scored ≠ [] →
      ∃ b, (pySort leScored scored).head? = some b ∧ b ∈ scored ∧
        (∀ c ∈ scored, c.success_prob_weighted < b.success_prob_weighted ∨
          (c.success_prob_weighted = b.success_prob_weighted ∧ c.safety ≤ b.safety)) ∧
        ∃ m, pyMaxBySafety (pySort leScored scored) = some m ∧ m ∈ scored ∧
          ∀ c ∈ scored, c.safety ≤ m.safety) ∧
    (pySort leScored [cand1, cand2, cand3]).head? = some cand1 ∧
    pyMaxBySafety (pySort leScored [cand1, cand2, cand3]) = some cand1 := by
  refine ⟨?_, ?_, ?_⟩
  · intro scored hne
    have hsne : pySort leScored scored ≠ [] := pySort_ne_nil leScored hne
    obtain ⟨b, t, hbt⟩ : ∃ b t, pySort leScored scored = b :: t := by
      rcases hs : pySort leScored scored with _ | ⟨b, t⟩
      · exact absurd hs hsne
      · exact ⟨b, t, rfl⟩
    have hpw := pairwise_pySort scored
    rw [hbt] at hpw
    have hble : ∀ z ∈ t, leScored b z = true := (List.pairwise_cons.mp hpw).1
    refine ⟨b, by rw [hbt]; rfl, ?_, ?_, ?_⟩
    · have hmem : b ∈ pySort leScored scored := by
        rw [hbt]
        simp
      exact (mem_pySort leScored scored b).mp hmem
    · intro c hc
      have hcmem : c ∈ pySort leScored scored := (mem_pySort leScored scored c).mpr hc
      rw [hbt] at hcmem
      rcases List.mem_cons.mp hcmem with rfl | hct
      · exact Or.inr ⟨rfl, le_refl _⟩
      · have hlc := hble c hct
        simp only [leScored, decide_eq_true_eq] at hlc
        rcases hlc with h | ⟨h1, h2⟩
        · exact Or.inl h
        · exact Or.inr ⟨h1.symm, h2⟩
    · obtain ⟨m, hmEq, hmMem, hmAll⟩ := pyMaxBySafety_spec hsne
      refine ⟨m, hmEq, (mem_pySort leScored scored m).mp hmMem, ?_⟩
      intro c hc
      exact hmAll c ((mem_pySort leScored scored c).mpr hc)
  · norm_num [pySort, insertSorted, leScored, cand1, cand2, cand3]
  · norm_num [pySort, insertSorted, leScored, pyMaxBySafety, pyMaxStep, cand1, cand2, cand3]

/-- Witness for C6: the general selection property applied to the concrete
three-candidate example. -/
theorem ranking_selection_witness :
    ([cand1, cand2, cand3] : List Scored) ≠ [] ∧
    ∃ b, (pySort leScored [cand1, cand2, cand3]).head? = some b ∧
      b ∈ [cand1, cand2, cand3] ∧
      (∀ c ∈ [cand1, cand2, cand3],
        c.success_prob_weighted < b.success_prob_weighted ∨
          (c.success_prob_weighted = b.success_prob_weighted ∧ c.safety ≤ b.safety)) ∧
      ∃ m, pyMaxBySafety (pySort leScored [cand1, cand2, cand3]) = some m ∧
        m ∈ [cand1, cand2, cand3] ∧
        ∀ c ∈ [cand1, cand2, cand3], c.safety ≤ m.safety :=
  ⟨by simp, ranking_selection.1 [cand1, cand2, cand3] (by simp)⟩

/-- Claim C8 (amended): with no candidates supplied, the published
per-score entry is the empty "no known checkout" record; and when
candidates are supplied but every one evaluates to success probability 0,
the published entry is the SAME empty record — the `if prob > 0` filter
removes them, so the two situations are not distinguishable in the table
(contrary to the claim as stated; see the counterexample). -/
theorem empty_and_zero_prob_results (probsOf : String → List (String × ℚ)) (T : ℤ)
    (cands : List (List String))
    (hall : ∀ seq ∈ cands,
      compute_success_prob_for_seq_given_T probsOf seq T = some 0 ∧
        (calculate_safety_score seq T).isSome = true) :
    perScoreResult probsOf cands T = some emptyResult ∧
      perScoreResult probsOf [] T = some emptyResult := by
  constructor
  · have hsc : scoreCandidates probsOf T cands = some [] := by
      induction cands with
      | nil => rfl
      | cons seq rest ih =>
        obtain ⟨hp, hs⟩ := hall seq (by simp)
        obtain ⟨s, hsEq⟩ := Option.isSome_iff_exists.mp hs
        rw [scoreCandidates, hp, hsEq, ih (fun sq hsq => (hall sq (by simp [hsq])))]
        norm_num
    simp only [perScoreResult, hsc]
    rfl
  · rfl

/-- Witness for C8: the bin where every dart lands t20; the one candidate
`[t20]` at total 40 always busts (prob 0), and the published entry equals
the empty record, as does the entry with no candidates at all. -/
theorem empty_and_zero_prob_results_witness :
    (∀ seq ∈ [["t20"]],
      compute_success_prob_for_seq_given_T probsOfT20 seq 40 = some 0 ∧
        (calculate_safety_score seq 40).isSome = true) ∧
    perScoreResult probsOfT20 [["t20"]] 40 = some emptyResult ∧
      perScoreResult probsOfT20 [] 40 = some emptyResult := by
  have hall : ∀ seq ∈ [["t20"]],
      compute_success_prob_for_seq_given_T probsOfT20 seq 40 = some 0 ∧
        (calculate_safety_score seq 40).isSome = true := by
    intro seq hseq
    simp only [List.mem_singleton] at hseq
    subst hseq
    exact ⟨rfl, rfl⟩
  exact ⟨hall, empty_and_zero_prob_results probsOfT20 40 [["t20"]] hall⟩

/-- Counterexample for C8 as stated: the published entry for the
zero-probability candidate list `[[t20]]` is identical to the entry for no
candidates at all — the two outcomes are not distinguishable. -/
theorem no_candidates_vs_zero_prob_counterexample :
    perScoreResult probsOfT20 [["t20"]] 40 = perScoreResult probsOfT20 [] 40 := by
  rfl

